import Mathlib

/-!
Verification of `make_repo_story_html.py`: a tool that extracts a git commit
graph and renders it as an animated standalone HTML visualization.

The development shallowly embeds the three relevant parts of the program:

* the lane-assignment layout algorithm (`assignLanes` in the embedded
  JavaScript), which walks the time-ascending commit sequence once and gives
  every commit a vertical lane;
* the interaction state machine of the visualizer (playback ticks, scrubbing,
  reset, wheel zoom) acting on the view state (`visibleN`, `zoom`, `panX`,
  `panY`, playback timer);
* the Python extractor `build_data` / `main` (commit-log parsing, tag-map
  construction, failure propagation, output writing).

JavaScript numbers holding integer counts are modelled as `Int`/`Nat`; the
zoom factor arithmetic is modelled over `ℚ` (the factors 0.92 and 1.08 are
the exact rationals 92/100 and 108/100). A JS `Map` is modelled as an
association list whose `set` removes the old binding and prepends the new
one: `get`/`has` agree with the JS map, and the multiset of entries agrees,
which is all the program observes (its only iteration over the map is an
order-independent maximum). External effects (subprocess output, raised
exceptions, the written file) are modelled with `Except` and `Option`.
-/

set_option maxHeartbeats 1000000

/-- A commit record, as parsed by the extractor from one line of
`git log --pretty=format:"%H|%P|%an|%ae|%at|%s"`. -/
structure Commit where
  hash : String
  parents : List String
  author : String
  email : String
  time : Int
  subject : String
  deriving DecidableEq, Repr

/-- State of the lane-assignment scan: the JS `laneOf` map (commit hash to
lane index) and the JS `used` array of slot flags. -/
structure LaneState where
  laneOf : List (String × Nat)
  used : List Bool
  deriving DecidableEq, Repr

/-- JS `Map.set`: replace any existing binding of `k` and bind it to `v`.
The new binding is prepended and the old one filtered out; `lookup` and the
multiset of entries agree with the JS map (iteration order differs, which
nothing in the program observes). -/
def mapSet (m : List (String × Nat)) (k : String) (v : Nat) : List (String × Nat) :=
  (k, v) :: m.filter (fun p => p.1 != k)

/-- The JS `allocLane` closure: scan `used` for the first free (`false`)
slot, mark it used and return its index; if every slot is used, push a new
`true` slot and return its index (the old length). Written as structural
recursion over the slot list; it computes the same index/array as the JS
`for` loop followed by `push`. -/
def allocLane : List Bool → Nat × List Bool
  | [] => (0, [true])
  | b :: rest =>
    if b then ((allocLane rest).1 + 1, b :: (allocLane rest).2)
    else (0, true :: rest)

/-- Whether slot `i` is free: an in-range `false` entry, or any index beyond
the end of the slot list (allocating there extends the list). -/
def slotFree (used : List Bool) (i : Nat) : Bool :=
  !(used.getD i false)

/-- The lane chosen for a commit, as a function of its first parent only
(JS: `const p0 = c.parents[0]; if (p0 && laneOf.has(p0)) lane = laneOf.get(p0);
if (lane === null) lane = allocLane();`). Returns the lane together with the
updated slot list. `p0 = ""` is falsy in JS, hence the emptiness test. -/
def laneForP0 (st : LaneState) (p0? : Option String) : Nat × List Bool :=
  match p0? with
  | none => allocLane st.used
  | some p0 =>
    if p0 = "" then allocLane st.used
    else
      match st.laneOf.lookup p0 with
      | some l => (l, st.used)
      | none => allocLane st.used

/-- Lane choice for a commit: reads only `c.parents[0]`. -/
def laneFor (st : LaneState) (c : Commit) : Nat × List Bool :=
  laneForP0 st c.parents.head?

/-- Whether processing `c` in state `st` performs a fresh slot allocation
(as opposed to inheriting the first parent's lane). -/
def freshAt (st : LaneState) (c : Commit) : Bool :=
  match c.parents.head? with
  | none => true
  | some p0 => p0 == "" || (st.laneOf.lookup p0).isNone

/-- One iteration of the `for (const c of commits)` loop of `assignLanes`. -/
def stepLane (st : LaneState) (c : Commit) : LaneState :=
  let r := laneFor st c
  { laneOf := mapSet st.laneOf c.hash r.1, used := r.2 }

/-- The full forward scan of `assignLanes` over the time-ascending commit
sequence, starting from an empty map and empty slot list. -/
def assignLanes (commits : List Commit) : LaneState :=
  commits.foldl stepLane { laneOf := [], used := [] }

/-- JS `Math.max(1, ...Array.from(laneOf.values()).map(v=>v+1))`. -/
def laneCountOf (st : LaneState) : Nat :=
  (st.laneOf.map (fun p => p.2 + 1)).foldl max 1

/-- The `laneCount` computed by `assignLanes`. -/
def laneCount (commits : List Commit) : Nat :=
  laneCountOf (assignLanes commits)

/-- Number of fresh slot allocations performed while scanning `l` from
state `st` (specification-side counter, defined independently of `used`). -/
def countFreshAux (st : LaneState) : List Commit → Nat
  | [] => 0
  | c :: rest => (if freshAt st c then 1 else 0) + countFreshAux (stepLane st c) rest

/-- Number of commits that receive a freshly allocated lane during the scan. -/
def countFresh (commits : List Commit) : Nat :=
  countFreshAux { laneOf := [], used := [] } commits

/-- Concrete commit with fixed metadata, for scenario inputs. -/
def mkCommit (h : String) (ps : List String) : Commit :=
  { hash := h, parents := ps, author := "a", email := "a@x", time := 0, subject := "s" }

/-- Scenario commits: `B` and `C` are roots, `M` is a merge with parents
`[B, C]` (first parent `B`). -/
def commitB : Commit := mkCommit "B" []

def commitC : Commit := mkCommit "C" []

def commitM : Commit := mkCommit "M" ["B", "C"]

/-- Scenario commits: lineage `A ← B` ends, then an unrelated root `D`
starts a second lineage. -/
def commitA : Commit := mkCommit "A" []

def commitBofA : Commit := mkCommit "B" ["A"]

def commitD : Commit := mkCommit "D" []

/-- Mutable UI state of the visualizer: the view cursor `visibleN`, the
playback timer (`playing` models `playTimer !== null`), and the camera
transform. `visibleN` is an arbitrary integer before clamping; zoom and pan
are exact rationals standing for the JS numbers. -/
structure ViewState where
  visibleN : Int
  playing : Bool
  zoom : ℚ
  panX : ℚ
  panY : ℚ
  deriving DecidableEq, Repr

/-- JS `setVisible(n)`: `visibleN = Math.max(0, Math.min(n, commits.length))`
(the slider/count/draw updates carry no further state). -/
def setVisible (count : Nat) (n : Int) (s : ViewState) : ViewState :=
  { s with visibleN := max 0 (min n (count : Int)) }

/-- JS `togglePlay()`: clear the timer if it is running, start it otherwise
(button label changes are not state). -/
def togglePlay (s : ViewState) : ViewState :=
  if s.playing then { s with playing := false } else { s with playing := true }

/-- One firing of the 40ms playback interval callback. When the timer is not
running no callback fires, so the idle state is returned unchanged. -/
def tick (count : Nat) (s : ViewState) : ViewState :=
  if s.playing then
    if s.visibleN ≥ (count : Int) then togglePlay s
    else setVisible count (s.visibleN + 1) s
  else s

/-- The slider input handler: `setVisible(parseInt(slider.value, 10))`. -/
def scrub (count : Nat) (n : Int) (s : ViewState) : ViewState :=
  setVisible count n s

/-- The reset button handler: stop playback if active, zero the transform,
set the cursor to `min(50, commits.length)`. -/
def resetView (count : Nat) (s : ViewState) : ViewState :=
  let s1 := if s.playing then togglePlay s else s
  setVisible count (min 50 (count : Int))
    { s1 with zoom := 1, panX := 0, panY := 0 }

/-- The canvas wheel handler: multiply zoom by 0.92 when `deltaY > 0` and by
1.08 otherwise, then clamp to `[0.2, 5]`. -/
def wheel (deltaY : ℚ) (s : ViewState) : ViewState :=
  let factor : ℚ := if deltaY > 0 then 92/100 else 108/100
  { s with zoom := max (1/5) (min (s.zoom * factor) 5) }

/-- View state with which counterexample scenarios start. -/
def viewStart : ViewState :=
  { visibleN := 0, playing := false, zoom := 1, panX := 0, panY := 0 }

/-- Playing state with `visibleN = 1`: mid-run for a two-commit history,
at the terminal cursor value for a one-commit history. -/
def viewPlaying1 : ViewState :=
  { visibleN := 1, playing := true, zoom := 1, panX := 0, panY := 0 }

/-- The state `viewPlaying1` advances to when a tick fires with two
commits. -/
def viewPlaying2 : ViewState :=
  { visibleN := 2, playing := true, zoom := 1, panX := 0, panY := 0 }

/-!
The Python string primitives the extractor uses are reimplemented by
structural recursion over the character list (the library versions recurse
on string positions and do not reduce in the kernel). Every separator the
program uses is a single character.
-/

/-- Split a character list at every character satisfying `p`; always returns
at least one (possibly empty) part, like Python `str.split(sep)`. -/
def chSplitP (p : Char → Bool) : List Char → List (List Char)
  | [] => [[]]
  | c :: rest =>
    if p c then [] :: chSplitP p rest
    else
      match chSplitP p rest with
      | [] => [[c]]
      | t :: ts => (c :: t) :: ts

/-- Python `str.split(sep)` for a one-character separator. -/
def pySplitChar (s : String) (sep : Char) : List String :=
  (chSplitP (fun c => c == sep) s.data).map String.mk

/-- Join parts back with a one-character separator (Python
`sep.join(parts)`), used for the unsplit remainder of `split(sep, n)`. -/
def joinSep (sep : Char) : List String → String
  | [] => ""
  | [x] => x
  | x :: xs => x ++ String.mk [sep] ++ joinSep sep xs

/-- Python `str.split(sep, maxsplit)` for a one-character separator: at most
`maxsplit` splits, the remainder (separators included) is the last part. -/
def pySplitMax (s : String) (sep : Char) (maxsplit : Nat) : List String :=
  let parts := pySplitChar s sep
  if parts.length ≤ maxsplit + 1 then parts
  else parts.take maxsplit ++ [joinSep sep (parts.drop maxsplit)]

/-- Python `str.split()` (no arguments): split on whitespace runs, dropping
empty tokens. -/
def pySplitWS (s : String) : List String :=
  ((chSplitP (fun c => c.isWhitespace) s.data).filter (fun t => t ≠ [])).map String.mk

/-- Python `str.splitlines()` on the already-stripped output of `sh` (the
extractor strips the subprocess output, so there is no trailing newline and
the lines are separated by single newline characters). -/
def pySplitlines (s : String) : List String :=
  if s = "" then [] else pySplitChar s '\n'

/-- Digit run to its value; `none` on a non-digit (Python `int` raises). -/
def digitsVal (acc : Nat) : List Char → Option Nat
  | [] => some acc
  | c :: rest =>
    if c.isDigit then digitsVal (acc * 10 + (c.toNat - '0'.toNat)) rest
    else none

/-- Python `int(s)` on the timestamp field: an optional sign followed by a
nonempty digit run (`git log %at` emits plain digit runs). -/
def pyToInt? (s : String) : Option Int :=
  match s.data with
  | [] => none
  | '-' :: rest =>
    if rest = [] then none else (digitsVal 0 rest).map (fun n => -(n : Int))
  | '+' :: rest =>
    if rest = [] then none else (digitsVal 0 rest).map (fun n => (n : Int))
  | cs => (digitsVal 0 cs).map (fun n => (n : Int))

/-- Replace every (non-overlapping, leftmost-first) occurrence of `pat` in
the character list, Python `str.replace`. The fuel argument (instantiated
with the list length) only makes the recursion structural; it never runs
out, since each step consumes at least one character. -/
def chReplace (pat repl : List Char) : Nat → List Char → List Char
  | _, [] => []
  | 0, s => s
  | fuel + 1, c :: rest =>
    if pat.isPrefixOf (c :: rest) then
      repl ++ chReplace pat repl fuel (List.drop pat.length (c :: rest))
    else c :: chReplace pat repl fuel rest

/-- Python `s.replace(pat, repl)`. -/
def pyReplace (s pat repl : String) : String :=
  String.mk (chReplace pat.data repl.data s.data.length s.data)

/-- Parse one `git log` line `hash|parents|author|email|time|subject`
(Python: `line.split("|", 5)` unpacked into six names, `int(at)`,
`parents.split() if parents else []`). A line with fewer than six fields or
a non-integer time raises, which the caller does not catch. -/
def parseCommitLine (line : String) : Except String Commit :=
  match pySplitMax line '|' 5 with
  | [h, ps, an, ae, at_, subj] =>
    match pyToInt? at_ with
    | some t =>
      Except.ok
        { hash := h, parents := if ps = "" then [] else pySplitWS ps,
          author := an, email := ae, time := t, subject := subj }
    | none => Except.error "invalid literal for int()"
  | _ => Except.error "not enough values to unpack"

/-- Stable insertion of a commit into a time-sorted list: `c` goes after
every commit with a strictly smaller time and before the first commit whose
time is greater or equal. Together with `sortByTime` this is a stable
ascending sort, matching Python's stable `list.sort(key=time)`. -/
def insertByTime (c : Commit) : List Commit → List Commit
  | [] => [c]
  | d :: rest => if d.time < c.time then d :: insertByTime c rest else c :: d :: rest

/-- Stable sort of the commit list ascending by `time`
(Python: `commits.sort(key=lambda c: c["time"])`). -/
def sortByTime : List Commit → List Commit
  | [] => []
  | c :: rest => insertByTime c (sortByTime rest)

/-- The tag map: commit-or-tag-object hash to list of tag names, in
insertion order (a Python `dict` of lists). -/
abbrev TagMap := List (String × List String)

/-- `ref.split("/")[-1].replace("^\x7b\x7d", "")`: the tag name of a ref,
with the dereference suffix stripped. -/
def tagName (ref : String) : String :=
  pyReplace ((pySplitChar ref '/').getLastD "") "^\x7b\x7d" ""

/-- Python `tags.setdefault(sha, []).append(tag)`: extend the list of an
existing key in place, or append a new key at the end (dict insertion
order). -/
def tagsInsert : TagMap → String → String → TagMap
  | [], sha, tag => [(sha, [tag])]
  | p :: rest, sha, tag =>
    if p.1 == sha then (p.1, p.2 ++ [tag]) :: rest
    else p :: tagsInsert rest sha tag

/-- The `for line in tags_raw.splitlines()` loop. Each line of
`git show-ref --tags -d` output is modelled as its whitespace-token list
(Python `line.split()`). A line that does not unpack into exactly
`sha, ref` raises; the surrounding `except Exception: pass` swallows the
exception, leaving the entries accumulated so far. -/
def tagsLoop : List (List String) → TagMap → TagMap
  | [], m => m
  | line :: rest, m =>
    match line with
    | [sha, ref] => tagsLoop rest (tagsInsert m sha (tagName ref))
    | _ => m

/-- Tag map built from well-formed `sha ref` line pairs. -/
def buildTags (pairs : List (String × String)) : TagMap :=
  tagsLoop (pairs.map (fun p => [p.1, p.2])) []

/-- The tag names accumulated under `sha` by a list of `sha ref` pairs. -/
def tagsOf (pairs : List (String × String)) (sha : String) : List String :=
  (pairs.filter (fun p => p.1 == sha)).map (fun p => tagName p.2)

/-- The two lines `git show-ref --tags -d` prints for one annotated tag
`v1`: the tag object's own hash `T`, then the dereferenced commit hash `C`
with the `^\x7b\x7d` suffix on the ref. -/
def annotatedTagLines : List (String × String) :=
  [("T", "refs/tags/v1"), ("C", "refs/tags/v1^\x7b\x7d")]

/-- The data bundle `build_data` returns (the `generated_at` timestamp, the
time-sorted commit list, the tag map). -/
structure Bundle where
  generated_at : String
  commits : List Commit
  tags : TagMap
  deriving DecidableEq, Repr

/-- The external world of one extractor run: the wall-clock time and the two
subprocess results, each either raising (`error`) or returning stripped
stdout. `git log` output is raw text still to parse; `git show-ref` output
is given as whitespace-token lines (see `tagsLoop`). -/
structure GitEnv where
  now : String
  logOut : Except String String
  showRefOut : Except String (List (List String))

/-- The `try/except: pass` tag block of `build_data`: a raised
`git show-ref` leaves the tag map empty; otherwise the loop runs over its
output lines. -/
def tagsFromEnv (env : GitEnv) : TagMap :=
  match env.showRefOut with
  | Except.error _ => []
  | Except.ok lines => tagsLoop lines []

/-- `build_data()`: run `git log` (a raised error propagates), parse each
line (a parse error propagates — Python raises at the first bad line),
stable-sort ascending by time, then build the tag map inside
`try/except: pass` (`tagsFromEnv`). -/
def build_data (env : GitEnv) : Except String Bundle :=
  match env.logOut with
  | Except.error e => Except.error e
  | Except.ok raw =>
    match (pySplitlines raw).mapM parseCommitLine with
    | Except.error e => Except.error e
    | Except.ok commits =>
      Except.ok
        { generated_at := env.now ++ "Z",
          commits := sortByTime commits,
          tags := tagsFromEnv env }

/-- The file `main()` leaves on disk: `main` calls `build_data` first and
writes the single output file only afterwards, so a raised extraction error
terminates the run before any write — `some bundle` (the data embedded in
the written document) exactly when `build_data` succeeds, `none` when it
raises. -/
def mainOutput (env : GitEnv) : Option Bundle :=
  (build_data env).toOption

/-- Concrete healthy environment: one root commit line, one lightweight
tag. -/
def envOk : GitEnv :=
  { now := "2024-01-01T00:00:00",
    logOut := Except.ok "h1||alice|a@x|5|init",
    showRefOut := Except.ok [["h1", "refs/tags/v1"]] }

/-- The commit record parsed from `envOk`'s single log line. -/
def commitH1 : Commit :=
  { hash := "h1", parents := [], author := "alice", email := "a@x",
    time := 5, subject := "init" }

/-- The bundle `build_data` produces from `envOk`. -/
def bundleOk : Bundle :=
  { generated_at := "2024-01-01T00:00:00Z", commits := [commitH1],
    tags := [("h1", ["v1"])] }

/-- Basic scan invariant: every slot flag is `true` (slots are never freed),
and every assigned lane index is below the slot count. -/
def LaneInvB (st : LaneState) : Prop :=
  (∀ b ∈ st.used, b = true) ∧ ∀ p ∈ st.laneOf, p.2 < st.used.length

/-- Strengthened invariant: basic invariant plus, when any slot exists, some
current entry attains the top lane `used.length - 1`. -/
def LaneInvT (st : LaneState) : Prop :=
  LaneInvB st ∧ (st.used = [] ∨ ∃ p ∈ st.laneOf, p.2 + 1 = st.used.length)

/-!
## Helper lemmas

### Association-list map (`mapSet`, `List.lookup`)
-/

theorem lookup_mapSet_self (m : List (String × Nat)) (k : String) (v : Nat) :
    (mapSet m k v).lookup k = some v := by
  simp [mapSet, List.lookup]

theorem lookup_filter_ne (m : List (String × Nat)) (k k' : String) (h : k' ≠ k) :
    (m.filter (fun p => p.1 != k)).lookup k' = m.lookup k' := by
  induction m with
  | nil => rfl
  | cons p rest ih =>
    by_cases hpk : p.1 = k
    · have h1 : (p.1 != k) = false := by simp [hpk]
      have h2 : (k' == p.1) = false := by simp [hpk, h]
      simp [List.filter, h1, List.lookup, h2, ih]
    · have h1 : (p.1 != k) = true := by simp [hpk]
      by_cases hk' : k' = p.1
      · simp [List.filter, h1, List.lookup, hk']
      · have h2 : (k' == p.1) = false := by simp [hk']
        simp [List.filter, h1, List.lookup, h2, ih]

theorem lookup_mapSet_ne (m : List (String × Nat)) (k k' : String) (v : Nat)
    (h : k' ≠ k) : (mapSet m k v).lookup k' = m.lookup k' := by
  have h2 : (k' == k) = false := by simp [h]
  simp [mapSet, List.lookup, h2, lookup_filter_ne m k k' h]

theorem lookup_mem (m : List (String × Nat)) (k : String) (v : Nat)
    (h : m.lookup k = some v) : (k, v) ∈ m := by
  induction m with
  | nil => simp [List.lookup] at h
  | cons p rest ih =>
    by_cases hk : k = p.1
    · have h2 : (k == p.1) = true := by simp [hk]
      simp only [List.lookup, h2] at h
      have hv : p.2 = v := by simpa using h
      have hp : (k, v) = p := by rw [hk, ← hv]
      exact hp ▸ List.mem_cons_self p rest
    · have h2 : (k == p.1) = false := by simp [hk]
      simp [List.lookup, h2] at h
      exact List.mem_cons_of_mem p (ih h)

theorem mem_lookup_of_keys_nodup (m : List (String × Nat)) (k : String) (v : Nat)
    (hmem : (k, v) ∈ m) (hnd : (m.map Prod.fst).Nodup) : m.lookup k = some v := by
  induction m with
  | nil => simp at hmem
  | cons p rest ih =>
    simp only [List.map_cons, List.nodup_cons] at hnd
    rcases List.mem_cons.mp hmem with heq | htail
    · subst heq
      simp [List.lookup]
    · have hk : k ≠ p.1 := by
        intro hkp
        exact hnd.1 (hkp ▸ (List.mem_map.mpr ⟨(k, v), htail, rfl⟩))
      have h2 : (k == p.1) = false := by simp [hk]
      simp [List.lookup, h2]
      exact ih htail hnd.2

theorem mapSet_keys_nodup (m : List (String × Nat)) (k : String) (v : Nat)
    (hnd : (m.map Prod.fst).Nodup) : ((mapSet m k v).map Prod.fst).Nodup := by
  simp only [mapSet, List.map_cons, List.nodup_cons]
  constructor
  · intro hk
    rcases List.mem_map.mp hk with ⟨p, hp, hpk⟩
    have := (List.mem_filter.mp hp).2
    simp [hpk] at this
  · exact List.Nodup.sublist (List.Sublist.map Prod.fst (List.filter_sublist m)) hnd

theorem mapSet_mem (m : List (String × Nat)) (k : String) (v : Nat) (p : String × Nat)
    (h : p ∈ mapSet m k v) : p = (k, v) ∨ p ∈ m := by
  rcases List.mem_cons.mp h with heq | hf
  · exact Or.inl heq
  · exact Or.inr (List.mem_filter.mp hf).1

theorem mapSet_ne_nil (m : List (String × Nat)) (k : String) (v : Nat) :
    mapSet m k v ≠ [] := by
  simp [mapSet]

theorem mapSet_eq_cons (m : List (String × Nat)) (k : String) (v : Nat)
    (h : ∀ p ∈ m, p.1 ≠ k) : mapSet m k v = (k, v) :: m := by
  unfold mapSet
  congr 1
  apply List.filter_eq_self.mpr
  intro p hp
  simp [h p hp]

/-! ### `allocLane` -/

theorem allocLane_free_spec (used : List Bool) :
    slotFree used (allocLane used).1 = true ∧
      ∀ j, j < (allocLane used).1 → slotFree used j = false := by
  induction used with
  | nil =>
    refine ⟨rfl, ?_⟩
    intro j hj
    simp [allocLane] at hj
  | cons b rest ih =>
    cases b with
    | false =>
      refine ⟨rfl, ?_⟩
      intro j hj
      simp [allocLane] at hj
    | true =>
      refine ⟨?_, ?_⟩
      · simpa [allocLane, slotFree, List.getD_cons_succ] using ih.1
      · intro j hj
        cases j with
        | zero => simp [slotFree, List.getD_cons_zero]
        | succ k =>
          have hk : k < (allocLane rest).1 := by
            simpa [allocLane] using hj
          simpa [slotFree, List.getD_cons_succ] using ih.2 k hk

theorem allocLane_all_true (used : List Bool) (h : ∀ b ∈ used, b = true) :
    allocLane used = (used.length, used ++ [true]) := by
  induction used with
  | nil => rfl
  | cons b rest ih =>
    have hb : b = true := h b (List.mem_cons_self b rest)
    subst hb
    have hr : allocLane rest = (rest.length, rest ++ [true]) :=
      ih (fun x hx => h x (List.mem_cons_of_mem _ hx))
    simp [allocLane, hr]

/-! ### Lane choice as a function of the first parent -/

theorem laneFor_fresh (st : LaneState) (c : Commit) (h : freshAt st c = true) :
    laneFor st c = allocLane st.used := by
  unfold laneFor laneForP0
  unfold freshAt at h
  cases hp : c.parents.head? with
  | none => rfl
  | some p0 =>
    rw [hp] at h
    by_cases he : p0 = ""
    · simp [he]
    · simp only [he, if_false]
      have hn : (st.laneOf.lookup p0).isNone = true := by
        simp only [Bool.or_eq_true] at h
        rcases h with h1 | h1
        · exact absurd (by simpa using h1) he
        · exact h1
      cases hl : st.laneOf.lookup p0 with
      | none => rfl
      | some l => rw [hl] at hn; simp at hn

theorem laneFor_inherit (st : LaneState) (c : Commit) (p0 : String) (l : Nat)
    (hp : c.parents.head? = some p0) (hne : p0 ≠ "")
    (hl : st.laneOf.lookup p0 = some l) : laneFor st c = (l, st.used) := by
  unfold laneFor laneForP0
  rw [hp]
  simp [hne, hl]

theorem not_fresh_inherit (st : LaneState) (c : Commit) (hf : freshAt st c = false) :
    ∃ p0 l, c.parents.head? = some p0 ∧ p0 ≠ "" ∧ st.laneOf.lookup p0 = some l := by
  unfold freshAt at hf
  cases hp : c.parents.head? with
  | none => rw [hp] at hf; simp at hf
  | some p0 =>
    rw [hp] at hf
    simp only [Bool.or_eq_false_iff] at hf
    refine ⟨p0, ?_⟩
    have hne : p0 ≠ "" := by
      intro he
      rw [he] at hf
      simp at hf
    cases hl : st.laneOf.lookup p0 with
    | none => rw [hl] at hf; simp at hf
    | some l => exact ⟨l, rfl, hne, rfl⟩

theorem stepLane_fresh (st : LaneState) (c : Commit) (hf : freshAt st c = true)
    (ht : ∀ b ∈ st.used, b = true) :
    stepLane st c =
      { laneOf := mapSet st.laneOf c.hash st.used.length,
        used := st.used ++ [true] } := by
  unfold stepLane
  rw [laneFor_fresh st c hf, allocLane_all_true st.used ht]

theorem stepLane_inherit (st : LaneState) (c : Commit) (p0 : String) (l : Nat)
    (hp : c.parents.head? = some p0) (hne : p0 ≠ "")
    (hl : st.laneOf.lookup p0 = some l) :
    stepLane st c = { laneOf := mapSet st.laneOf c.hash l, used := st.used } := by
  unfold stepLane
  rw [laneFor_inherit st c p0 l hp hne hl]

/-! ### Invariants of the forward scan -/

theorem stepLane_invB (st : LaneState) (c : Commit) (h : LaneInvB st) :
    LaneInvB (stepLane st c) := by
  by_cases hf : freshAt st c = true
  · rw [stepLane_fresh st c hf h.1]
    constructor
    · intro b hb
      rcases List.mem_append.mp hb with hb | hb
      · exact h.1 b hb
      · simpa using hb
    · intro p hp
      rcases mapSet_mem _ _ _ _ hp with rfl | hm
      · simp
      · have := h.2 p hm
        simp only [List.length_append, List.length_singleton]
        omega
  · obtain ⟨p0, l, hp0, hne, hl⟩ :=
      not_fresh_inherit st c (Bool.not_eq_true _ ▸ hf)
    rw [stepLane_inherit st c p0 l hp0 hne hl]
    constructor
    · exact h.1
    · intro p hp
      rcases mapSet_mem _ _ _ _ hp with rfl | hm
      · exact h.2 (p0, l) (lookup_mem _ _ _ hl)
      · exact h.2 p hm

theorem foldl_stepLane_invB (l : List Commit) :
    ∀ st : LaneState, LaneInvB st → LaneInvB (l.foldl stepLane st) := by
  induction l with
  | nil => intro st h; exact h
  | cons c rest ih =>
    intro st h
    exact ih (stepLane st c) (stepLane_invB st c h)

theorem assignLanes_invB (commits : List Commit) : LaneInvB (assignLanes commits) := by
  refine foldl_stepLane_invB commits _ ⟨?_, ?_⟩
  · intro b hb; simp at hb
  · intro p hp; simp at hp

theorem stepLane_keys_nodup (st : LaneState) (c : Commit)
    (h : (st.laneOf.map Prod.fst).Nodup) :
    ((stepLane st c).laneOf.map Prod.fst).Nodup :=
  mapSet_keys_nodup st.laneOf c.hash (laneFor st c).1 h

theorem foldl_stepLane_keys_nodup (l : List Commit) :
    ∀ st : LaneState, (st.laneOf.map Prod.fst).Nodup →
      (((l.foldl stepLane st)).laneOf.map Prod.fst).Nodup := by
  induction l with
  | nil => intro st h; exact h
  | cons c rest ih => intro st h; exact ih _ (stepLane_keys_nodup st c h)

theorem assignLanes_keys_nodup (commits : List Commit) :
    ((assignLanes commits).laneOf.map Prod.fst).Nodup := by
  refine foldl_stepLane_keys_nodup commits _ ?_
  simp

theorem stepLane_lookup_self (st : LaneState) (c : Commit) :
    (stepLane st c).laneOf.lookup c.hash = some (laneFor st c).1 :=
  lookup_mapSet_self st.laneOf c.hash (laneFor st c).1

theorem stepLane_lookup_ne (st : LaneState) (c : Commit) (hsh : String)
    (hne : hsh ≠ c.hash) :
    (stepLane st c).laneOf.lookup hsh = st.laneOf.lookup hsh :=
  lookup_mapSet_ne st.laneOf c.hash hsh (laneFor st c).1 hne

theorem foldl_stepLane_lookup_frozen (l : List Commit) :
    ∀ st : LaneState, ∀ hsh : String, ∀ v : Nat,
      st.laneOf.lookup hsh = some v → (∀ c ∈ l, c.hash ≠ hsh) →
      (l.foldl stepLane st).laneOf.lookup hsh = some v := by
  induction l with
  | nil => intro st hsh v hv _; exact hv
  | cons c rest ih =>
    intro st hsh v hv hne
    have hc : hsh ≠ c.hash := fun h => hne c (List.mem_cons_self c rest) h.symm
    refine ih (stepLane st c) hsh v ?_ ?_
    · rw [stepLane_lookup_ne st c hsh hc]; exact hv
    · intro d hd; exact hne d (List.mem_cons_of_mem c hd)

theorem foldl_stepLane_lookup_isSome (l : List Commit) :
    ∀ st : LaneState, ∀ hsh : String, (st.laneOf.lookup hsh).isSome = true →
      ((l.foldl stepLane st).laneOf.lookup hsh).isSome = true := by
  induction l with
  | nil => intro st hsh h; exact h
  | cons c rest ih =>
    intro st hsh h
    refine ih (stepLane st c) hsh ?_
    by_cases hc : hsh = c.hash
    · rw [hc, stepLane_lookup_self]; rfl
    · rw [stepLane_lookup_ne st c hsh hc]; exact h

theorem foldl_stepLane_laneOf_ne_nil (l : List Commit) :
    ∀ st : LaneState, st.laneOf ≠ [] → (l.foldl stepLane st).laneOf ≠ [] := by
  induction l with
  | nil => intro st h; exact h
  | cons c rest ih =>
    intro st _
    exact ih (stepLane st c) (mapSet_ne_nil st.laneOf c.hash (laneFor st c).1)

theorem foldl_stepLane_used_length (l : List Commit) :
    ∀ st : LaneState, (∀ b ∈ st.used, b = true) →
      ((l.foldl stepLane st)).used.length = st.used.length + countFreshAux st l := by
  induction l with
  | nil => intro st _; simp [countFreshAux]
  | cons c rest ih =>
    intro st ht
    by_cases hf : freshAt st c = true
    · have hst : stepLane st c =
          { laneOf := mapSet st.laneOf c.hash st.used.length,
            used := st.used ++ [true] } := stepLane_fresh st c hf ht
      have ht' : ∀ b ∈ (stepLane st c).used, b = true := by
        rw [hst]
        intro b hb
        rcases List.mem_append.mp hb with hb | hb
        · exact ht b hb
        · simpa using hb
      have := ih (stepLane st c) ht'
      simp only [List.foldl_cons, countFreshAux, hf, if_true] at *
      rw [this, hst]
      simp
      omega
    · obtain ⟨p0, lv, hp0, hne, hl⟩ :=
        not_fresh_inherit st c (Bool.not_eq_true _ ▸ hf)
      have hst : stepLane st c =
          { laneOf := mapSet st.laneOf c.hash lv, used := st.used } :=
        stepLane_inherit st c p0 lv hp0 hne hl
      have ht' : ∀ b ∈ (stepLane st c).used, b = true := by
        rw [hst]; exact ht
      have := ih (stepLane st c) ht'
      simp only [List.foldl_cons, countFreshAux, hf, if_false] at *
      rw [this, hst]
      simp

/-! ### Folded maximum (JS `Math.max(1, ...)`) -/

theorem le_foldl_max_init (xs : List Nat) : ∀ a : Nat, a ≤ xs.foldl max a := by
  induction xs with
  | nil => intro a; simp
  | cons x xs ih =>
    intro a
    calc a ≤ max a x := le_max_left a x
    _ ≤ xs.foldl max (max a x) := ih (max a x)

theorem foldl_max_le (xs : List Nat) :
    ∀ a B : Nat, a ≤ B → (∀ x ∈ xs, x ≤ B) → xs.foldl max a ≤ B := by
  induction xs with
  | nil => intro a B ha _; simpa using ha
  | cons x xs ih =>
    intro a B ha h
    simp only [List.foldl_cons]
    refine ih (max a x) B ?_ ?_
    · exact max_le ha (h x (List.mem_cons_self x xs))
    · intro y hy; exact h y (List.mem_cons_of_mem x hy)

theorem mem_le_foldl_max (xs : List Nat) :
    ∀ a x : Nat, x ∈ xs → x ≤ xs.foldl max a := by
  induction xs with
  | nil => intro a x h; simp at h
  | cons y xs ih =>
    intro a x h
    rcases List.mem_cons.mp h with rfl | h
    · calc x ≤ max a x := le_max_right a x
      _ ≤ xs.foldl max (max a x) := le_foldl_max_init xs (max a x)
    · exact ih (max a y) x h

theorem foldl_max_attained (xs : List Nat) :
    ∀ a : Nat, xs.foldl max a = a ∨ xs.foldl max a ∈ xs := by
  induction xs with
  | nil => intro a; left; rfl
  | cons x xs ih =>
    intro a
    simp only [List.foldl_cons]
    rcases ih (max a x) with h | h
    · rcases max_choice a x with hm | hm
      · left; rw [h, hm]
      · right; rw [h, hm]; exact List.mem_cons_self x xs
    · right; exact List.mem_cons_of_mem x h

/-! ### The top lane is always attained (needs pairwise-distinct hashes) -/

theorem foldl_stepLane_invT (l : List Commit) :
    ∀ st : LaneState, LaneInvT st → (l.map Commit.hash).Nodup →
      (∀ c ∈ l, ∀ p ∈ st.laneOf, p.1 ≠ c.hash) →
      LaneInvT (l.foldl stepLane st) := by
  induction l with
  | nil => intro st h _ _; exact h
  | cons c rest ih =>
    intro st h hnd hdisj
    simp only [List.map_cons, List.nodup_cons] at hnd
    have hstep : LaneInvT (stepLane st c) := by
      refine ⟨stepLane_invB st c h.1, ?_⟩
      by_cases hf : freshAt st c = true
      · right
        refine ⟨(c.hash, st.used.length), ?_, ?_⟩
        · rw [stepLane_fresh st c hf h.1.1]
          exact List.mem_cons_self _ _
        · rw [stepLane_fresh st c hf h.1.1]
          simp
      · obtain ⟨p0, lv, hp0, hne, hl⟩ :=
          not_fresh_inherit st c (Bool.not_eq_true _ ▸ hf)
        have hused : st.used ≠ [] := by
          intro hu
          have := h.1.2 (p0, lv) (lookup_mem _ _ _ hl)
          rw [hu] at this
          simp at this
        rcases h.2 with hu | ⟨p, hp, htop⟩
        · exact absurd hu hused
        · right
          refine ⟨p, ?_, ?_⟩
          · rw [stepLane_inherit st c p0 lv hp0 hne hl]
            simp only [mapSet, List.mem_cons]
            right
            refine List.mem_filter.mpr ⟨hp, ?_⟩
            have : p.1 ≠ c.hash := hdisj c (List.mem_cons_self c rest) p hp
            simp [this]
          · rw [stepLane_inherit st c p0 lv hp0 hne hl]
            exact htop
    refine ih (stepLane st c) hstep hnd.2 ?_
    intro d hd p hp
    have hp' := mapSet_mem st.laneOf c.hash (laneFor st c).1 p hp
    rcases hp' with rfl | hm
    · intro hcd
      exact hnd.1 (List.mem_map.mpr ⟨d, hd, hcd.symm⟩)
    · exact hdisj d (List.mem_cons_of_mem c hd) p hm

theorem assignLanes_invT (commits : List Commit)
    (hnd : (commits.map Commit.hash).Nodup) : LaneInvT (assignLanes commits) := by
  refine foldl_stepLane_invT commits _ ⟨⟨?_, ?_⟩, Or.inl rfl⟩ hnd ?_
  · intro b hb; simp at hb
  · intro p hp; simp at hp
  · intro c _ p hp; simp at hp

/-- Under the strengthened invariant the computed lane count is exactly the
number of slots. -/
theorem laneCountOf_eq_used_length (st : LaneState) (hinv : LaneInvT st)
    (hne : st.used ≠ []) : laneCountOf st = st.used.length := by
  rcases hinv.2 with hu | ⟨p, hp, htop⟩
  · exact absurd hu hne
  · apply le_antisymm
    · refine foldl_max_le _ 1 st.used.length ?_ ?_
      · have : 0 < st.used.length := List.length_pos.mpr hne
        omega
      · intro x hx
        rcases List.mem_map.mp hx with ⟨q, hq, rfl⟩
        exact hinv.1.2 q hq
    · calc st.used.length = p.2 + 1 := htop.symm
      _ ≤ laneCountOf st :=
        mem_le_foldl_max _ 1 (p.2 + 1) (List.mem_map.mpr ⟨p, hp, rfl⟩)

/-! ### Tag map -/

theorem tagsInsert_lookup_self (m : TagMap) (sha t : String) :
    (tagsInsert m sha t).lookup sha = some ((m.lookup sha).getD [] ++ [t]) := by
  induction m with
  | nil => simp [tagsInsert, List.lookup]
  | cons p rest ih =>
    by_cases hp : p.1 = sha
    · have h1 : (p.1 == sha) = true := by simp [hp]
      have h2 : (sha == p.1) = true := by simp [hp]
      simp [tagsInsert, h1, List.lookup, h2]
    · have h1 : (p.1 == sha) = false := by simp [hp]
      have h2 : (sha == p.1) = false := by simp [Ne.symm hp]
      simp [tagsInsert, h1, List.lookup, h2, ih]

theorem tagsInsert_lookup_ne (m : TagMap) (sha t sha' : String) (h : sha' ≠ sha) :
    (tagsInsert m sha t).lookup sha' = m.lookup sha' := by
  induction m with
  | nil =>
    have h2 : (sha' == sha) = false := by simp [h]
    simp [tagsInsert, List.lookup, h2]
  | cons p rest ih =>
    by_cases hp : p.1 = sha
    · have h1 : (p.1 == sha) = true := by simp [hp]
      have h2 : (sha' == p.1) = false := by simp [hp, h]
      simp [tagsInsert, h1, List.lookup, h2]
    · have h1 : (p.1 == sha) = false := by simp [hp]
      by_cases hq : sha' = p.1
      · simp [tagsInsert, h1, List.lookup, hq]
      · have h2 : (sha' == p.1) = false := by simp [hq]
        simp [tagsInsert, h1, List.lookup, h2, ih]

theorem tagsLoop_pairs (pairs : List (String × String)) :
    ∀ m : TagMap, tagsLoop (pairs.map (fun p => [p.1, p.2])) m =
      pairs.foldl (fun m p => tagsInsert m p.1 (tagName p.2)) m := by
  induction pairs with
  | nil => intro m; rfl
  | cons p rest ih => intro m; exact ih (tagsInsert m p.1 (tagName p.2))

theorem tagsOf_cons_eq (a r : String) (rest : List (String × String)) (sha : String)
    (h : a = sha) : tagsOf ((a, r) :: rest) sha = tagName r :: tagsOf rest sha := by
  have h1 : (a == sha) = true := by simp [h]
  simp [tagsOf, List.filter_cons, h1]

theorem tagsOf_cons_ne (a r : String) (rest : List (String × String)) (sha : String)
    (h : a ≠ sha) : tagsOf ((a, r) :: rest) sha = tagsOf rest sha := by
  have h1 : (a == sha) = false := by simp [h]
  simp [tagsOf, List.filter_cons, h1]

theorem foldl_tagsInsert_lookup_some (pairs : List (String × String)) :
    ∀ (m : TagMap) (sha : String) (ex : List String), m.lookup sha = some ex →
      (pairs.foldl (fun m p => tagsInsert m p.1 (tagName p.2)) m).lookup sha =
        some (ex ++ tagsOf pairs sha) := by
  induction pairs with
  | nil => intro m sha ex h; simpa [tagsOf]
  | cons p rest ih =>
    intro m sha ex h
    by_cases hp : p.1 = sha
    · have hstep : (tagsInsert m p.1 (tagName p.2)).lookup sha =
          some (ex ++ [tagName p.2]) := by
        rw [← hp] at h ⊢
        rw [tagsInsert_lookup_self, h]
        rfl
      have := ih (tagsInsert m p.1 (tagName p.2)) sha (ex ++ [tagName p.2]) hstep
      simp only [List.foldl_cons] at *
      rw [this, tagsOf_cons_eq p.1 p.2 rest sha hp]
      simp
    · have hstep : (tagsInsert m p.1 (tagName p.2)).lookup sha = some ex := by
        rw [tagsInsert_lookup_ne m p.1 (tagName p.2) sha (Ne.symm hp)]
        exact h
      have := ih (tagsInsert m p.1 (tagName p.2)) sha ex hstep
      simp only [List.foldl_cons] at *
      rw [this, tagsOf_cons_ne p.1 p.2 rest sha hp]

theorem foldl_tagsInsert_lookup_none (pairs : List (String × String)) :
    ∀ (m : TagMap) (sha : String), m.lookup sha = none →
      (pairs.foldl (fun m p => tagsInsert m p.1 (tagName p.2)) m).lookup sha =
        if tagsOf pairs sha = [] then none else some (tagsOf pairs sha) := by
  induction pairs with
  | nil => intro m sha h; simpa [tagsOf] using h
  | cons p rest ih =>
    intro m sha h
    by_cases hp : p.1 = sha
    · have hstep : (tagsInsert m p.1 (tagName p.2)).lookup sha =
          some [tagName p.2] := by
        rw [← hp] at h ⊢
        rw [tagsInsert_lookup_self, h]
        rfl
      have := foldl_tagsInsert_lookup_some rest
        (tagsInsert m p.1 (tagName p.2)) sha [tagName p.2] hstep
      simp only [List.foldl_cons] at *
      rw [this, tagsOf_cons_eq p.1 p.2 rest sha hp]
      simp
    · have hstep : (tagsInsert m p.1 (tagName p.2)).lookup sha = none := by
        rw [tagsInsert_lookup_ne m p.1 (tagName p.2) sha (Ne.symm hp)]
        exact h
      have := ih (tagsInsert m p.1 (tagName p.2)) sha hstep
      simp only [List.foldl_cons] at *
      rw [this, tagsOf_cons_ne p.1 p.2 rest sha hp]

theorem foldl_stepLane_mem_isSome (l : List Commit) :
    ∀ st : LaneState, ∀ c ∈ l,
      ((l.foldl stepLane st).laneOf.lookup c.hash).isSome = true := by
  induction l with
  | nil => intro st c hc; simp at hc
  | cons d rest ih =>
    intro st c hc
    rcases List.mem_cons.mp hc with rfl | hc
    · simp only [List.foldl_cons]
      refine foldl_stepLane_lookup_isSome rest (stepLane st c) c.hash ?_
      rw [stepLane_lookup_self]
      rfl
    · simp only [List.foldl_cons]
      exact ih (stepLane st d) c hc

/-!
## Claim theorems
-/

/-- Claim C1: processed in ascending order, a commit whose first parent `p0`
already has a lane is assigned exactly that lane; otherwise it gets the
lowest-indexed free slot (extending the slot list when no slot is free,
which is what `allocLane` returns); parents beyond `p0` never influence the
choice (the lane function only reads `parents[0]`); and in the concrete
merge scenario `M` with parents `[B, C]`, where `B` has lane 0 and `C` has
lane 1, `M` is assigned lane 0. -/
theorem assignLanes_first_parent_rule :
    (∀ (pre : List Commit) (c : Commit) (p0 : String) (l : Nat),
        c.parents.head? = some p0 → p0 ≠ "" →
        (assignLanes pre).laneOf.lookup p0 = some l →
        (assignLanes (pre ++ [c])).laneOf.lookup c.hash = some l) ∧
    (∀ (pre : List Commit) (c : Commit),
        freshAt (assignLanes pre) c = true →
        (assignLanes (pre ++ [c])).laneOf.lookup c.hash =
          some ((allocLane (assignLanes pre).used).1) ∧
        slotFree (assignLanes pre).used ((allocLane (assignLanes pre).used).1) = true ∧
        ∀ j, j < (allocLane (assignLanes pre).used).1 →
          slotFree (assignLanes pre).used j = false) ∧
    (∀ (st : LaneState) (c c' : Commit),
        c.parents.head? = c'.parents.head? → laneFor st c = laneFor st c') ∧
    ((assignLanes [commitB, commitC, commitM]).laneOf.lookup "B" = some 0 ∧
      (assignLanes [commitB, commitC, commitM]).laneOf.lookup "C" = some 1 ∧
      (assignLanes [commitB, commitC, commitM]).laneOf.lookup "M" = some 0) := by
  refine ⟨?_, ?_, ?_, by decide, by decide, by decide⟩
  · intro pre c p0 l hp hne hl
    have heq : assignLanes (pre ++ [c]) = stepLane (assignLanes pre) c := by
      simp [assignLanes, List.foldl_append]
    rw [heq, stepLane_inherit _ c p0 l hp hne hl]
    exact lookup_mapSet_self _ _ _
  · intro pre c hf
    have heq : assignLanes (pre ++ [c]) = stepLane (assignLanes pre) c := by
      simp [assignLanes, List.foldl_append]
    refine ⟨?_, (allocLane_free_spec _).1, (allocLane_free_spec _).2⟩
    rw [heq]
    have h := stepLane_lookup_self (assignLanes pre) c
    rw [laneFor_fresh _ c hf] at h
    exact h
  · intro st c c' h
    unfold laneFor
    rw [h]

/-- Witness for C1: the inherited-lane clause applied to the concrete merge
scenario (`M` takes first parent `B`'s lane 0). -/
theorem assignLanes_first_parent_rule_witness :
    (assignLanes ([commitB, commitC] ++ [commitM])).laneOf.lookup "M" = some 0 :=
  assignLanes_first_parent_rule.1 [commitB, commitC] commitM "B" 0 rfl
    (by decide) (by decide)

/-- Claim C2: lane assignment gives every commit exactly one lane (the map
holds a lane for every scanned commit), the lane count is at least 1 (also
for the empty history, where it is exactly 1), every assigned lane index is
below the lane count, and for a non-empty history the lane count is exactly
`1 + ` the maximum assigned lane index (some assigned lane attains
`laneCount - 1`). -/
theorem assignLanes_total_with_laneCount (commits : List Commit) :
    1 ≤ laneCount commits ∧
    (∀ c ∈ commits, ∃ l, (assignLanes commits).laneOf.lookup c.hash = some l) ∧
    (∀ hsh l, (assignLanes commits).laneOf.lookup hsh = some l →
        l < laneCount commits) ∧
    (commits = [] → laneCount commits = 1) ∧
    (commits ≠ [] → ∃ hsh l,
        (assignLanes commits).laneOf.lookup hsh = some l ∧
        l + 1 = laneCount commits) := by
  have hLC : laneCount commits =
      ((assignLanes commits).laneOf.map (fun p => p.2 + 1)).foldl max 1 := rfl
  refine ⟨?_, ?_, ?_, ?_, ?_⟩
  · rw [hLC]
    exact le_foldl_max_init _ 1
  · intro c hc
    have := foldl_stepLane_mem_isSome commits { laneOf := [], used := [] } c hc
    exact Option.isSome_iff_exists.mp this
  · intro hsh l hl
    have hmem := lookup_mem _ hsh l hl
    have : l + 1 ≤ laneCount commits := by
      rw [hLC]
      exact mem_le_foldl_max _ 1 (l + 1) (List.mem_map.mpr ⟨(hsh, l), hmem, rfl⟩)
    omega
  · intro h
    subst h
    rfl
  · intro hne
    have hmemne : (assignLanes commits).laneOf ≠ [] := by
      cases commits with
      | nil => exact absurd rfl hne
      | cons c rest =>
        show (List.foldl stepLane _ (c :: rest)).laneOf ≠ []
        simp only [List.foldl_cons]
        exact foldl_stepLane_laneOf_ne_nil rest _ (mapSet_ne_nil _ _ _)
    rcases foldl_max_attained
        ((assignLanes commits).laneOf.map (fun p => p.2 + 1)) 1 with hat | hat
    · obtain ⟨p, hp⟩ : ∃ p, p ∈ (assignLanes commits).laneOf := by
        cases hm : (assignLanes commits).laneOf with
        | nil => exact absurd hm hmemne
        | cons q t => exact ⟨q, hm ▸ List.mem_cons_self q t⟩
      have hle : p.2 + 1 ≤ laneCount commits := by
        rw [hLC]
        exact mem_le_foldl_max _ 1 (p.2 + 1) (List.mem_map.mpr ⟨p, hp, rfl⟩)
      have h1 : laneCount commits = 1 := by rw [hLC, hat]
      refine ⟨p.1, p.2, ?_, by omega⟩
      exact mem_lookup_of_keys_nodup _ p.1 p.2 hp (assignLanes_keys_nodup commits)
    · rcases List.mem_map.mp hat with ⟨p, hp, hpv⟩
      refine ⟨p.1, p.2, ?_, ?_⟩
      · exact mem_lookup_of_keys_nodup _ p.1 p.2 hp (assignLanes_keys_nodup commits)
      · rw [hLC, hpv]

/-- Witness for C2: the non-empty clause at the one-commit history. -/
theorem assignLanes_total_with_laneCount_witness :
    ∃ hsh l, (assignLanes [commitA]).laneOf.lookup hsh = some l ∧
      l + 1 = laneCount [commitA] :=
  (assignLanes_total_with_laneCount [commitA]).2.2.2.2 (by decide)

/-- Claim C3 counterexample: in the scenario the claim describes — the
lineage `A ← B` has ended (no still-unprocessed commit extends it) before
the unrelated root `D` begins a second lineage — `D` is assigned the fresh
lane 1, not the lane 0 that the ended lineage occupied: the allocator never
frees a claimed slot, so no lane is ever vacated for reuse. -/
theorem lane_reuse_counterexample :
    (assignLanes [commitA, commitBofA, commitD]).laneOf.lookup "D" = some 1 ∧
    ¬ (assignLanes [commitA, commitBofA, commitD]).laneOf.lookup "D" = some 0 := by
  constructor
  · decide
  · decide

/-- Claim C3 (amended): lane slots are never freed during the scan — every
slot flag stays `true` — so a commit whose first parent has no lane (in
particular the starting commit of a later, unrelated lineage) is assigned
the fresh lane `used.length`, strictly greater than every lane assigned so
far, never a lane vacated by an ended lineage. -/
theorem fresh_lane_never_reused (pre : List Commit) (c : Commit)
    (hf : freshAt (assignLanes pre) c = true) :
    (assignLanes (pre ++ [c])).laneOf.lookup c.hash =
      some (assignLanes pre).used.length ∧
    (∀ b ∈ (assignLanes pre).used, b = true) ∧
    ∀ p ∈ (assignLanes pre).laneOf, p.2 < (assignLanes pre).used.length := by
  have hinv := assignLanes_invB pre
  have heq : assignLanes (pre ++ [c]) = stepLane (assignLanes pre) c := by
    simp [assignLanes, List.foldl_append]
  refine ⟨?_, hinv.1, hinv.2⟩
  rw [heq, stepLane_fresh _ c hf hinv.1]
  exact lookup_mapSet_self _ _ _

/-- Witness for amended C3: the concrete ended-lineage scenario; `D` gets
the fresh top lane. -/
theorem fresh_lane_never_reused_witness :
    (assignLanes ([commitA, commitBofA] ++ [commitD])).laneOf.lookup "D" =
      some (assignLanes [commitA, commitBofA]).used.length :=
  (fresh_lane_never_reused [commitA, commitBofA] commitD (by decide)).1

/-- Claim C10: within one run slots are never freed (every flag of every
prefix state is `true`); a commit whose first parent has no lane at its
processing time receives lane `countFresh pre` — the number of fresh
allocations before it — so such commits get lanes 0, 1, 2, … consecutively
in processing order; and for a non-empty history the lane count equals the
number of such commits. Hashes are pairwise distinct, as the data model
assumes. -/
theorem lanes_never_freed_consecutive (commits : List Commit)
    (hnd : (commits.map Commit.hash).Nodup) :
    (∀ pre post, commits = pre ++ post → ∀ b ∈ (assignLanes pre).used, b = true) ∧
    (∀ pre c post, commits = pre ++ c :: post →
        freshAt (assignLanes pre) c = true →
        (assignLanes commits).laneOf.lookup c.hash = some (countFresh pre)) ∧
    (commits ≠ [] → laneCount commits = countFresh commits) := by
  have hlen : ∀ l : List Commit, (assignLanes l).used.length = countFresh l := by
    intro l
    have := foldl_stepLane_used_length l { laneOf := [], used := [] }
      (by intro b hb; simp at hb)
    simpa [assignLanes, countFresh] using this
  refine ⟨?_, ?_, ?_⟩
  · intro pre _ _
    exact (assignLanes_invB pre).1
  · intro pre c post hsplit hf
    have hinv := assignLanes_invB pre
    have hstep : (stepLane (assignLanes pre) c).laneOf.lookup c.hash =
        some (countFresh pre) := by
      rw [stepLane_fresh _ c hf hinv.1, ← hlen pre]
      exact lookup_mapSet_self _ _ _
    subst hsplit
    have h2 : ((c :: post).map Commit.hash).Nodup := by
      rw [List.map_append] at hnd
      exact hnd.of_append_right
    rw [List.map_cons, List.nodup_cons] at h2
    have hpost : ∀ d ∈ post, d.hash ≠ c.hash := by
      intro d hd hdc
      exact h2.1 (List.mem_map.mpr ⟨d, hd, hdc⟩)
    have heq : assignLanes (pre ++ c :: post) =
        post.foldl stepLane (stepLane (assignLanes pre) c) := by
      simp [assignLanes, List.foldl_append]
    rw [heq]
    exact foldl_stepLane_lookup_frozen post _ c.hash (countFresh pre) hstep hpost
  · intro hne
    have hinvT := assignLanes_invT commits hnd
    have hu : (assignLanes commits).used ≠ [] := by
      cases commits with
      | nil => exact absurd rfl hne
      | cons c rest =>
        have hf : freshAt { laneOf := [], used := [] } c = true := by
          unfold freshAt
          cases c.parents.head? <;> simp [List.lookup]
        have hcf : 1 ≤ countFresh (c :: rest) := by
          simp [countFresh, countFreshAux, hf]
        have := hlen (c :: rest)
        intro hnil
        rw [hnil] at this
        simp at this
        omega
    have hc := laneCountOf_eq_used_length (assignLanes commits) hinvT hu
    show laneCountOf (assignLanes commits) = countFresh commits
    rw [hc, hlen commits]

/-- Witness for C10: in the ended-lineage scenario the lane count equals
the number of fresh allocations (2). -/
theorem lanes_never_freed_consecutive_witness :
    laneCount [commitA, commitBofA, commitD] =
      countFresh [commitA, commitBofA, commitD] :=
  (lanes_never_freed_consecutive [commitA, commitBofA, commitD]
    (by decide)).2.2 (by decide)

/-- Claim C4 counterexample: with one commit and the playback timer running
at `visibleN = 0`, the tick that makes `visibleN` reach the commit count
does NOT stop playback: after it `visibleN = commitCount = 1` and the timer
is still running; the stop happens only on the following tick. -/
theorem autostop_tick_counterexample :
    (tick 1 { viewStart with playing := true }).visibleN = 1 ∧
    (tick 1 { viewStart with playing := true }).playing = true := by
  exact ⟨by decide, by decide⟩

/-- Claim C4 (amended): while Playing, a tick that finds
`visibleN < commitCount` advances the cursor by one and leaves playback
running — in particular the tick that makes `visibleN` equal `commitCount`
does not stop it; the first tick that finds `visibleN ≥ commitCount` stops
playback without moving the cursor; and once Idle, no tick has any effect
until a new play-toggle. -/
theorem playback_tick_behavior (count : Nat) (s : ViewState) :
    (s.playing = true → (count : Int) ≤ s.visibleN →
        tick count s = { s with playing := false }) ∧
    (s.playing = true → 0 ≤ s.visibleN → s.visibleN < (count : Int) →
        tick count s = { s with visibleN := s.visibleN + 1 }) ∧
    (s.playing = false → tick count s = s) := by
  refine ⟨?_, ?_, ?_⟩
  · intro hp hge
    unfold tick togglePlay
    simp [hp, hge]
  · intro hp h0 hlt
    have hmx : max 0 (min (s.visibleN + 1) (count : Int)) = s.visibleN + 1 := by
      omega
    unfold tick setVisible
    simp [hp, not_le.mpr hlt, hmx]
  · intro hp
    unfold tick
    simp [hp]

/-- Witness for amended C4: a mid-run tick advances the cursor and keeps
playing. -/
theorem playback_tick_behavior_witness :
    tick 2 viewPlaying1 = viewPlaying2 :=
  (playback_tick_behavior 2 viewPlaying1).2.1 rfl (by decide) (by decide)

/-- Claim C5: after a scrub to an arbitrary integer or a reset, `visibleN`
lies in `[0, commitCount]` unconditionally; a playback tick keeps it in that
interval. -/
theorem visibleN_clamped (count : Nat) (n : Int) (s : ViewState) :
    (0 ≤ (scrub count n s).visibleN ∧ (scrub count n s).visibleN ≤ (count : Int)) ∧
    (0 ≤ (resetView count s).visibleN ∧
      (resetView count s).visibleN ≤ (count : Int)) ∧
    (0 ≤ s.visibleN → s.visibleN ≤ (count : Int) →
      0 ≤ (tick count s).visibleN ∧ (tick count s).visibleN ≤ (count : Int)) := by
  refine ⟨⟨?_, ?_⟩, ⟨?_, ?_⟩, ?_⟩
  · simp [scrub, setVisible]
  · simp [scrub, setVisible]
  · simp [resetView, setVisible]
  · simp [resetView, setVisible]
  · intro h0 hc
    unfold tick
    split_ifs with hp hge
    · have hkeep : (togglePlay s).visibleN = s.visibleN := by
        unfold togglePlay
        split_ifs
        rfl
      rw [hkeep]
      exact ⟨h0, hc⟩
    · unfold setVisible
      constructor
      · simp
      · simp
    · exact ⟨h0, hc⟩

/-- Witness for C5: a tick at the terminal cursor value of a one-commit
history stays in range. -/
theorem visibleN_clamped_witness :
    0 ≤ (tick 1 viewPlaying1).visibleN ∧
      (tick 1 viewPlaying1).visibleN ≤ ((1 : Nat) : Int) :=
  (visibleN_clamped 1 0 viewPlaying1).2.2 (by decide) (by decide)

/-- Claim C6: from any prior state, reset stops playback and restores
`zoom = 1`, `panX = 0`, `panY = 0`, and `visibleN = min(50, commitCount)`. -/
theorem reset_restores_defaults (count : Nat) (s : ViewState) :
    resetView count s =
      { visibleN := min 50 (count : Int), playing := false,
        zoom := 1, panX := 0, panY := 0 } := by
  have hmx : max 0 (min (min 50 (count : Int)) (count : Int)) =
      min 50 (count : Int) := by omega
  by_cases hp : s.playing = true
  · simp [resetView, togglePlay, setVisible, hp, hmx]
  · have hp' : s.playing = false := by simpa using hp
    simp [resetView, togglePlay, setVisible, hp', hmx]

/-- Claim C7 counterexample: from zoom 1, one zoom-in wheel event followed
by one zoom-out wheel event stays strictly inside the clamp range `[0.2, 5]`
at every step, yet the final zoom is not the prior value: the code's factors
1.08 and 0.92 are not reciprocals, so the exact round-trip fails even in the
unclamped interior. -/
theorem zoom_roundtrip_counterexample :
    (1/5 : ℚ) < (wheel (-1) viewStart).zoom ∧ (wheel (-1) viewStart).zoom < 5 ∧
    (1/5 : ℚ) < (wheel 1 (wheel (-1) viewStart)).zoom ∧
    (wheel 1 (wheel (-1) viewStart)).zoom < 5 ∧
    ¬ (wheel 1 (wheel (-1) viewStart)).zoom = viewStart.zoom := by
  have h1 : (wheel (-1) viewStart).zoom = 27/25 := by
    norm_num [wheel, viewStart, min_def, max_def]
  have h2 : (wheel 1 (wheel (-1) viewStart)).zoom = 621/625 := by
    norm_num [wheel, viewStart, min_def, max_def]
  rw [h1, h2]
  norm_num [viewStart]

/-- Claim C7 (amended): in the unclamped interior of the zoom range, one
zoom-in event followed by one zoom-out event multiplies zoom by
`1.08 · 0.92 = 0.9936 = 621/625`; the result is never exactly the prior
value, since the two factors are not reciprocals. -/
theorem zoom_roundtrip_factor (dIn dOut : ℚ) (s : ViewState)
    (hin : ¬ dIn > 0) (hout : dOut > 0)
    (h1 : 1/5 ≤ s.zoom * (108/100)) (h2 : s.zoom * (108/100) ≤ 5)
    (h3 : 1/5 ≤ s.zoom * (108/100) * (92/100))
    (h4 : s.zoom * (108/100) * (92/100) ≤ 5) :
    (wheel dOut (wheel dIn s)).zoom = s.zoom * (621/625) ∧
    ¬ (wheel dOut (wheel dIn s)).zoom = s.zoom := by
  have hz1 : (wheel dIn s).zoom = s.zoom * (108/100) := by
    show max (1/5) (min (s.zoom * (if dIn > 0 then 92/100 else 108/100)) 5) =
      s.zoom * (108/100)
    rw [if_neg hin, min_eq_left h2, max_eq_right h1]
  have hz2 : (wheel dOut (wheel dIn s)).zoom = s.zoom * (621/625) := by
    show max (1/5)
        (min ((wheel dIn s).zoom * (if dOut > 0 then 92/100 else 108/100)) 5) =
      s.zoom * (621/625)
    rw [if_pos hout, hz1, min_eq_left h4, max_eq_right h3]
    ring
  refine ⟨hz2, ?_⟩
  intro heq
  rw [hz2] at heq
  have hzpos : 0 < s.zoom := by linarith
  linarith

/-- Witness for amended C7: the concrete in-then-out pair from zoom 1 lands
on `621/625`, not back on 1. -/
theorem zoom_roundtrip_factor_witness :
    (wheel 1 (wheel (-1) viewStart)).zoom = viewStart.zoom * (621/625) ∧
    ¬ (wheel 1 (wheel (-1) viewStart)).zoom = viewStart.zoom :=
  zoom_roundtrip_factor (-1) 1 viewStart (by norm_num) (by norm_num)
    (by norm_num [viewStart]) (by norm_num [viewStart])
    (by norm_num [viewStart]) (by norm_num [viewStart])

/-- Claim C8: a raised tag-lookup step (`git show-ref`) is non-fatal —
`build_data` still succeeds with the same bundle except an empty tag map,
and the output file is written with that bundle; a raised commit-log step
(`git log`) is fatal — the error propagates as a terminated run and no
output file is written (`main` performs its single write only after
`build_data` returns). -/
theorem extraction_failure_policy (env : GitEnv) (e : String) :
    (env.logOut = Except.error e → mainOutput env = none) ∧
    (∀ b : Bundle, build_data env = Except.ok b → ∀ e2 : String,
        build_data { env with showRefOut := Except.error e2 } =
          Except.ok { b with tags := [] } ∧
        mainOutput { env with showRefOut := Except.error e2 } =
          some { b with tags := [] }) := by
  constructor
  · intro hl
    simp [mainOutput, build_data, hl, Except.toOption]
  · intro b hb e2
    cases hlog : env.logOut with
    | error e3 => simp [build_data, hlog] at hb
    | ok raw =>
      cases hparse : (pySplitlines raw).mapM parseCommitLine with
      | error e3 =>
        simp only [build_data, hlog] at hb
        rw [hparse] at hb
        simp at hb
      | ok commits =>
        simp only [build_data, hlog] at hb
        rw [hparse] at hb
        simp only [] at hb
        injection hb with hb2
        subst hb2
        constructor
        · simp only [build_data]
          rw [hparse]
          rfl
        · unfold mainOutput
          simp only [build_data]
          rw [hparse]
          rfl

/-- Witness for C8: on the healthy environment with the tag lookup failing,
the bundle is produced with an empty tag map and written out. -/
theorem extraction_failure_policy_witness :
    build_data { envOk with showRefOut := Except.error "boom" } =
      Except.ok { bundleOk with tags := [] } ∧
    mainOutput { envOk with showRefOut := Except.error "boom" } =
      some { bundleOk with tags := [] } :=
  (extraction_failure_policy envOk "x").2 bundleOk (by rfl) "boom"

/-- Claim C9 counterexample: for the two lines `git show-ref --tags -d`
prints for one annotated tag (the tag object's own hash `T` on the plain
line, the dereferenced commit hash `C` on the suffixed line), the code
records the tag name under BOTH hashes: the key `T` — a tag object hash,
not the hash of any commit — is present in the map alongside `C`. -/
theorem tag_map_key_counterexample :
    (buildTags annotatedTagLines).lookup "T" = some ["v1"] ∧
    (buildTags annotatedTagLines).lookup "C" = some ["v1"] ∧
    "T" ≠ "C" :=
  ⟨by decide, by decide, by decide⟩

/-- Claim C9 (amended): the keys of the tag map are exactly the hashes
appearing in the ref listing — for an annotated tag both the tag object's
hash and the dereferenced commit's hash (its line's suffix is stripped from
the tag name); multiple tags accumulate in listing order under one key; a
hash on no line (in particular a commit with no tags) has no entry. -/
theorem tag_map_characterization (pairs : List (String × String)) (sha : String) :
    (buildTags pairs).lookup sha =
      if tagsOf pairs sha = [] then none else some (tagsOf pairs sha) := by
  unfold buildTags
  rw [tagsLoop_pairs pairs []]
  exact foldl_tagsInsert_lookup_none pairs [] sha rfl
